import Mathlib

/-!
# doctl: `commands/sandbox-extra.go`

A shallow embedding of the output and flag post-processing done by the
`sandbox` subcommands (`init`, `deploy`), together with the parts of Go's
`strings` and `errors` packages they call.

A Go string is embedded as a list of characters.  Every pattern the source
searches for is ASCII, and an ASCII byte never occurs inside a multi-byte
UTF-8 sequence, so searching and splitting by characters agrees with Go's
byte-wise search on well-formed text.
-/

namespace SandboxExtra

/-- Go `string`, as the list of its characters. -/
abbrev GoString := List Char

/-! ## Go standard library: package `strings` -/

namespace strings

/-- Go `strings.Index(s, substr)`: position of the first occurrence of `substr`
in `s`; `none` stands for Go's `-1`. -/
def Index (s substr : GoString) : Option Nat :=
  match s with
  | [] => if substr = [] then some 0 else none
  | c :: t =>
    if substr.isPrefixOf (c :: t) then some 0 else (Index t substr).map (· + 1)

/-- The loop of Go `strings.Count` for a non-empty `substr`: find the next
occurrence, count it, continue after it. -/
def countLoop (substr : GoString) : Nat → GoString → Nat
  | 0, _ => 0
  | fuel + 1, s =>
    match Index s substr with
    | none => 0
    | some i => countLoop substr fuel (s.drop (i + substr.length)) + 1

/-- Go `strings.Count(s, substr)`: number of non-overlapping occurrences; for an
empty `substr` it is the number of characters plus one. -/
def Count (s substr : GoString) : Nat :=
  if substr = [] then s.length + 1 else countLoop substr s.length s

/-- The loop of Go `strings.genSplit` (with `sepSave = 0`): at most `n` cuts,
then the remainder is the last element. -/
def splitLoop (sep : GoString) : Nat → GoString → List GoString
  | 0, s => [s]
  | n + 1, s =>
    match Index s sep with
    | none => [s]
    | some m => s.take m :: splitLoop sep n (s.drop (m + sep.length))

/-- Go `strings.Split(s, sep)`, that is `genSplit(s, sep, 0, -1)`: an empty `sep`
explodes `s` into its characters, otherwise `n = Count(s, sep) + 1` bounded by
`len(s) + 1` elements are cut off. -/
def Split (s sep : GoString) : List GoString :=
  if sep = [] then s.map (fun c => [c])
  else splitLoop sep (min (Count s sep + 1) (s.length + 1) - 1) s

/-- Go `strings.Join(elems, sep)`: the first element, then `sep` and the next
element for each of the others. -/
def Join (elems : List GoString) (sep : GoString) : GoString :=
  match elems with
  | [] => []
  | e :: rest => rest.foldl (fun b s => b ++ sep ++ s) e

/-- Go `strings.Contains(s, substr)`: `Index(s, substr) >= 0`. -/
def Contains (s substr : GoString) : Bool :=
  (Index s substr).isSome

/-- The builder loop of Go `strings.Replace`: `rest` is `s[start:]`, `b` the text
built so far, `i` the iteration number. -/
def replaceLoop (old new : GoString) : Nat → Nat → GoString → GoString → GoString
  | 0, _, rest, b => b ++ rest
  | k + 1, i, rest, b =>
    let j := if old = [] then (if 0 < i then 1 else 0) else (Index rest old).getD 0
    replaceLoop old new k (i + 1) (rest.drop (j + old.length)) (b ++ rest.take j ++ new)

/-- Go `strings.Replace(s, old, new, n)`: the first `n` non-overlapping
occurrences of `old` replaced by `new` (all of them when `n < 0`). -/
def Replace (s old new : GoString) (n : Int) : GoString :=
  if old = new ∨ n = 0 then s
  else
    let m := Count s old
    if m = 0 then s
    else
      let n' : Nat := if n < 0 ∨ (m : Int) < n then m else n.toNat
      replaceLoop old new n' 0 s []

end strings

/-! ## Go standard library: package `errors` and the `error` interface -/

/-- A Go `error` value: either the `*errorString` made by `errors.New`, or a value
of any other dynamic type, identified by `id`, whose `Error()` method gives
`text`. -/
inductive GoError
  | errorString (text : GoString)
  | other (id : Nat) (text : GoString)
deriving DecidableEq

/-- The `Error()` method. -/
def GoError.Error : GoError → GoString
  | .errorString text => text
  | .other _ text => text

namespace errors

/-- Go `errors.New(text)`. -/
def New (text : GoString) : GoError := .errorString text

end errors

/-! ## The data of package `commands` used by `sandbox-extra.go` -/

/-- Modelled from the spec: the configuration store behind `c.Doit` is declared
outside `sandbox-extra.go`.  It holds a string per namespace and flag;
`readErr` is the error `GetString` reports for a flag, if any; `writes` records
the `Set` calls in order (namespace, flag, value). -/
structure Config where
  values : GoString → GoString → GoString
  readErr : GoString → GoString → Option GoError
  writes : List (GoString × GoString × GoString)

/-- Modelled from the spec: the call `c.Doit.GetString(ns, key)`, the stored value or
the read error of the flag. -/
def Config.GetString (d : Config) (ns key : GoString) : Except GoError GoString :=
  match d.readErr ns key with
  | some e => .error e
  | none => .ok (d.values ns key)

/-- Modelled from the spec: the call `c.Doit.Set(ns, key, val)`, which stores `val`
under that namespace and flag and leaves every other entry alone. -/
def Config.Set (d : Config) (ns key val : GoString) : Config :=
  { d with
    values := fun ns' key' => if ns' = ns ∧ key' = key then val else d.values ns' key'
    writes := d.writes ++ [(ns, key, val)] }

/-- Modelled from the spec: the part of `CmdConfig` (declared outside
`sandbox-extra.go`) the code reads: namespace, configuration store and positional
arguments.  What is written to the writer `c.Out` is recorded in `Result`. -/
structure CmdConfig where
  NS : GoString
  Doit : Config
  Args : List GoString

/-- A dynamically typed value found in a decoded JSON object: a string or
anything else. -/
inductive Dyn
  | str (s : GoString)
  | other

/-- The `Entity` field of the external tool's output (Go `interface{}`): a
`map[string]interface{}` or anything else. -/
inductive EntityValue
  | jsonMap (fields : List (GoString × Dyn))
  | other

/-- Modelled from the spec: the output of the external tool (type `SandboxOutput`,
declared outside `sandbox-extra.go`), with the two fields this file looks at. -/
structure SandboxOutput where
  Entity : EntityValue
  Captured : List GoString

/-- Modelled from the spec: the external tool's commands named by the constants
`projectCreate`, `projectDeploy`, ... (declared outside this file; their texts play
no role here). -/
inductive SandboxCommand
  | projectCreate
  | projectDeploy
  | projectGetMetadata
  | projectWatch
deriving DecidableEq

/-- Modelled from the spec: functions of package `commands` that `sandbox-extra.go`
calls and that are defined elsewhere; they are parameters of the embedding.  `PrintSandboxTextOutput`
gives the text it writes to `c.Out` and the error it returns. -/
structure Env where
  ensureOneArg : CmdConfig → Option GoError
  RunSandboxExec : SandboxCommand → CmdConfig → List GoString → List GoString →
    SandboxOutput × Option GoError
  PrintSandboxTextOutput : CmdConfig → SandboxOutput → GoString × Option GoError

/-- What a `Run...` function did: the configuration afterwards, the text written
to `c.Out`, the text written to standard output, and the returned error. -/
structure Result where
  c : CmdConfig
  out : GoString
  stdout : GoString
  err : Option GoError

/-! Flag names and the keyword `web`.  The constants are declared outside
`sandbox-extra.go`; the flag names are the ones `SandboxExtras` registers. -/

/-- Modelled from the spec: constant `flagOverwrite`, the flag `overwrite` of `init`. -/
def flagOverwrite : GoString := "overwrite".toList

/-- Modelled from the spec: constant `flagLanguage`, the flag `language` of `init`. -/
def flagLanguage : GoString := "language".toList

/-- Modelled from the spec: constant `flagInsecure`, the flag `insecure`. -/
def flagInsecure : GoString := "insecure".toList

/-- Modelled from the spec: constant `flagVerboseBuild`, the flag `verbose-build`. -/
def flagVerboseBuild : GoString := "verbose-build".toList

/-- Modelled from the spec: constant `flagVerboseZip`, the flag `verbose-zip`. -/
def flagVerboseZip : GoString := "verbose-zip".toList

/-- Modelled from the spec: constant `flagYarn`, the flag `yarn`. -/
def flagYarn : GoString := "yarn".toList

/-- Modelled from the spec: constant `flagRemoteBuild`, the flag `remote-build`. -/
def flagRemoteBuild : GoString := "remote-build".toList

/-- Modelled from the spec: constant `flagIncremental`, the flag `incremental`. -/
def flagIncremental : GoString := "incremental".toList

/-- Modelled from the spec: constant `flagEnv`, the flag `env`. -/
def flagEnv : GoString := "env".toList

/-- Modelled from the spec: constant `flagBuildEnv`, the flag `build-env`. -/
def flagBuildEnv : GoString := "build-env".toList

/-- Modelled from the spec: constant `flagApihost`, the flag `apihost`. -/
def flagApihost : GoString := "apihost".toList

/-- Modelled from the spec: constant `flagAuth`, the flag `auth`. -/
def flagAuth : GoString := "auth".toList

/-- Modelled from the spec: constant `flagInclude`, the flag `include`. -/
def flagInclude : GoString := "include".toList

/-- Modelled from the spec: constant `flagExclude`, the flag `exclude`. -/
def flagExclude : GoString := "exclude".toList

/-- Modelled from the spec: constant `keywordWeb`, the token `web` that the doc
comment of `adjustIncludeAndExclude` says is appended as `--exclude web`. -/
def keywordWeb : GoString := "web".toList

/-! ## `sandbox-extra.go` -/

/-- A Go loop `for i, v := range a { a = body i v a }` over a slice of strings:
the length is fixed on entry, `v` is the element at `i` when iteration `i`
starts.  `k` iterations remain, the next index is `i`. -/
def rangeLoop (body : Nat → GoString → List GoString → List GoString) :
    Nat → Nat → List GoString → List GoString
  | 0, _, a => a
  | k + 1, i, a => rangeLoop body k (i + 1) (body i (a.getD i []) a)

/-- The function `qualifyWebWithSlash`. -/
def qualifyWebWithSlash (original : GoString) : GoString :=
  let tokens := strings.Split original ",".toList
  let tokens := rangeLoop
    (fun i token tokens => if token = "web".toList then tokens.set i "web/".toList else tokens)
    tokens.length 0 tokens
  strings.Join tokens ",".toList

/-- The function `adjustIncludeAndExclude`, acting on the configuration store of `c`. -/
def adjustIncludeAndExclude (c : CmdConfig) : CmdConfig :=
  let c :=
    match c.Doit.GetString c.NS flagInclude with
    | .ok includes =>
      if includes ≠ [] then
        let includes := qualifyWebWithSlash includes
        { c with Doit := c.Doit.Set c.NS flagInclude includes }
      else c
    | .error _ => c
  match c.Doit.GetString c.NS flagExclude with
  | .ok excludes =>
    if excludes ≠ [] then
      let excludes := qualifyWebWithSlash excludes
      let excludes := excludes ++ ",".toList ++ keywordWeb
      { c with Doit := c.Doit.Set c.NS flagExclude excludes }
    else { c with Doit := c.Doit.Set c.NS flagExclude keywordWeb }
  | .error _ => { c with Doit := c.Doit.Set c.NS flagExclude keywordWeb }

/-- The loop of `RunSandboxExtraDeploy` that fixes up `output.Captured`. -/
def fixCaptured (captured : List GoString) : List GoString :=
  rangeLoop
    (fun index value captured =>
      if strings.Contains value "Deploying project".toList then
        captured.set index (strings.Replace value "Deploying project".toList "Deployed".toList 1)
      else if strings.Contains value "Deployed actions".toList then
        captured.set index
          "Deployed functions ('doctl sbx fn get <funcName> --url' for URL):".toList
      else captured)
    captured.length 0 captured

/-- The function `RunSandboxExtraCreate` (`sandbox init`). -/
def RunSandboxExtraCreate (env : Env) (c : CmdConfig) : Result :=
  match env.ensureOneArg c with
  | some err => ⟨c, [], [], some err⟩
  | none =>
    match env.RunSandboxExec .projectCreate c [flagOverwrite] [flagLanguage] with
    | (_, some err) =>
      let text := err.Error
      if strings.Contains text "already exists".toList then
        let text := strings.Replace text "-o".toList "--overwrite".toList 1
        ⟨c, [], [], some (errors.New text)⟩
      else ⟨c, [], [], some err⟩
    | (output, none) =>
      let fallBack : Result :=
        ⟨c, [], "Sandbox initialized successfully in the local file system".toList ++ "\n".toList,
          none⟩
      match output.Entity with
      | .jsonMap jsonOutput =>
        match jsonOutput.lookup "project".toList with
        | some (.str created) =>
          ⟨c,
            "A local sandbox area '".toList ++ created ++
              "' was created for you.\nYou may deploy it by running the command shown on the next line:\n  doctl sandbox deploy ".toList
              ++ created ++ "\n".toList ++ "\n".toList,
            [], none⟩
        | _ => fallBack
      | .other => fallBack

/-- The function `RunSandboxExtraDeploy` (`sandbox deploy`). -/
def RunSandboxExtraDeploy (env : Env) (c : CmdConfig) : Result :=
  let c := adjustIncludeAndExclude c
  match env.ensureOneArg c with
  | some err => ⟨c, [], [], some err⟩
  | none =>
    match env.RunSandboxExec .projectDeploy c
        [flagInsecure, flagVerboseBuild, flagVerboseZip, flagYarn, flagRemoteBuild, flagIncremental]
        [flagEnv, flagBuildEnv, flagApihost, flagAuth, flagInclude, flagExclude] with
    | (output, err) =>
      if err ≠ none ∧ output.Captured.length = 0 then ⟨c, [], [], err⟩
      else
        let output := { output with Captured := fixCaptured output.Captured }
        match err with
        | none =>
          let printed := env.PrintSandboxTextOutput c output
          ⟨c, printed.1, [], printed.2⟩
        | some e => ⟨c, strings.Join output.Captured "\n".toList ++ "\n".toList, [], some e⟩

/-! ## Definitions used to state and prove the properties -/

/-- The text `r` is `s` with only its first occurrence of `old` replaced by `new`:
`s` is cut at the leftmost position where `old` starts, and `r` has `new` where
`s` has that occurrence; a text without any occurrence stays as it is. -/
def IsFirstReplaced (old new s r : GoString) : Prop :=
  (∃ pre post, s = pre ++ old ++ post ∧ (∀ k, k < pre.length → ¬ old <+: s.drop k) ∧
      r = pre ++ new ++ post) ∨
  (¬ old <:+: s ∧ r = s)

namespace strings

/-- Put `x` in front of the first element of a list of tokens. -/
def consHead (x : Char) : List GoString → List GoString
  | [] => [[x]]
  | t :: ts => (x :: t) :: ts

/-- Splitting at every occurrence of the character `c`, by recursion on the text. -/
def splitChar (c : Char) : GoString → List GoString
  | [] => [[]]
  | x :: xs => if x = c then [] :: splitChar c xs else consHead x (splitChar c xs)

end strings

/-- The first statement group of `adjustIncludeAndExclude`: the include flag. -/
def adjustInclude (c : CmdConfig) : CmdConfig :=
  match c.Doit.GetString c.NS flagInclude with
  | .ok includes =>
    if includes ≠ [] then
      { c with Doit := c.Doit.Set c.NS flagInclude (qualifyWebWithSlash includes) }
    else c
  | .error _ => c

/-- The second statement group of `adjustIncludeAndExclude`: the exclude flag. -/
def adjustExclude (c : CmdConfig) : CmdConfig :=
  match c.Doit.GetString c.NS flagExclude with
  | .ok excludes =>
    if excludes ≠ [] then
      { c with Doit := c.Doit.Set c.NS flagExclude
                (qualifyWebWithSlash excludes ++ ",".toList ++ keywordWeb) }
    else { c with Doit := c.Doit.Set c.NS flagExclude keywordWeb }
  | .error _ => { c with Doit := c.Doit.Set c.NS flagExclude keywordWeb }

/-- What the body of the fix-up loop puts at the position of the line `value`. -/
def fixLine (value : GoString) : GoString :=
  if strings.Contains value "Deploying project".toList then
    strings.Replace value "Deploying project".toList "Deployed".toList 1
  else if strings.Contains value "Deployed actions".toList then
    "Deployed functions ('doctl sbx fn get <funcName> --url' for URL):".toList
  else value

/-! Concrete inputs on which the properties are exercised. -/

/-- A configuration with `--include web` and `--exclude web,pkg`, one argument. -/
def sampleConfig : CmdConfig where
  NS := "deploy".toList
  Doit :=
    { values := fun _ key =>
        if key = flagExclude then "web,pkg".toList
        else if key = flagInclude then "web".toList else []
      readErr := fun _ _ => none
      writes := [] }
  Args := ["dir".toList]

/-- A transcript with one line of each kind. -/
def sampleCaptured : List GoString :=
  ["Deploying project /tmp/Deploying project".toList, "Deployed actions:".toList,
    "  - sample/hello".toList]

/-- An environment whose external tool always fails: on `init` because the
directory exists, on the other commands after the transcript `sampleCaptured`. -/
def sampleEnv : Env where
  ensureOneArg := fun c =>
    if c.Args.length = 1 then none else some (.other 0 "wrong number of arguments".toList)
  RunSandboxExec := fun cmd _ _ _ =>
    match cmd with
    | .projectCreate =>
      (⟨.other, []⟩, some (.other 1 "dir already exists, use -o to overwrite it".toList))
    | _ => (⟨.other, sampleCaptured⟩, some (.other 2 "deployment failed".toList))
  PrintSandboxTextOutput := fun _ output =>
    (strings.Join output.Captured "\n".toList ++ "\n".toList, none)

/-! # Properties -/

/-! ## Facts about the `strings` functions -/

namespace strings

theorem Index_nil (substr : GoString) :
    Index [] substr = if substr = [] then some 0 else none := by
  simp [Index]

theorem Index_cons (c : Char) (t substr : GoString) :
    Index (c :: t) substr =
      if substr.isPrefixOf (c :: t) then some 0 else (Index t substr).map (· + 1) := by
  simp [Index]

/-- `Index` finds an occurrence, and no occurrence starts before it. -/
theorem Index_some {s substr : GoString} {i : Nat} (h : Index s substr = some i) :
    substr <+: s.drop i ∧ i ≤ s.length ∧ ∀ k, k < i → ¬ substr <+: s.drop k := by
  induction s generalizing i with
  | nil =>
    rw [Index_nil] at h
    split at h
    · rename_i h0
      cases h
      subst h0
      simp
    · cases h
  | cons c t ih =>
    rw [Index_cons] at h
    split at h
    · rename_i hp
      cases h
      refine ⟨?_, by simp, by simp⟩
      simpa using hp
    · rename_i hp
      cases hi : Index t substr with
      | none => simp [hi] at h
      | some j =>
        simp [hi] at h
        subst h
        obtain ⟨h1, h2, h3⟩ := ih hi
        refine ⟨by simpa using h1, by simpa using h2, ?_⟩
        intro k hk
        cases k with
        | zero => simpa using hp
        | succ k => simpa using h3 k (by omega)

/-- `Index` fails only when there is no occurrence at all. -/
theorem Index_none {s substr : GoString} (h : Index s substr = none) :
    ¬ substr <:+: s := by
  induction s with
  | nil =>
    rw [Index_nil] at h
    split at h
    · cases h
    · rename_i h0
      simpa using h0
  | cons c t ih =>
    rw [Index_cons] at h
    split at h
    · cases h
    · rename_i hp
      have ht : Index t substr = none := by
        cases hi : Index t substr with
        | none => rfl
        | some j => simp [hi] at h
      intro hinf
      rcases List.infix_cons_iff.mp hinf with h1 | h1
      · exact hp (by simpa using h1)
      · exact ih ht h1

theorem Contains_iff (s substr : GoString) :
    Contains s substr = true ↔ substr <:+: s := by
  unfold Contains
  cases h : Index s substr with
  | none => simpa using Index_none h
  | some i =>
    simp only [Option.isSome_some, true_iff]
    obtain ⟨h1, -, -⟩ := Index_some h
    exact h1.isInfix.trans (List.drop_suffix i s).isInfix

theorem Count_of_Index_none {s substr : GoString} (hne : substr ≠ [])
    (h : Index s substr = none) : Count s substr = 0 := by
  unfold Count
  rw [if_neg hne]
  cases s.length with
  | zero => rfl
  | succ k => simp [countLoop, h]

theorem Count_of_Index_some {s substr : GoString} {i : Nat} (hne : substr ≠ [])
    (h : Index s substr = some i) : Count s substr ≠ 0 := by
  unfold Count
  rw [if_neg hne]
  have hs : s ≠ [] := by
    intro hs
    subst hs
    rw [Index_nil, if_neg hne] at h
    cases h
  obtain ⟨k, hk⟩ : ∃ k, s.length = k + 1 :=
    ⟨s.length - 1, by have := List.length_pos.mpr hs; omega⟩
  rw [hk]
  simp [countLoop, h]

/-- `Replace` with `n = 1` when `old` occurs: the occurrence `Index` finds is cut
out and `new` put in its place. -/
theorem Replace_one_of_Index_some {s old new : GoString} {i : Nat} (hne : old ≠ [])
    (hon : old ≠ new) (h : Index s old = some i) :
    Replace s old new 1 = s.take i ++ new ++ s.drop (i + old.length) := by
  have hc := Count_of_Index_some hne h
  unfold Replace
  have h1 : ¬ (old = new ∨ (1 : Int) = 0) := by simp [hon]
  rw [if_neg h1]
  simp only [hc, if_false]
  have h2 : ¬ ((1 : Int) < 0 ∨ (Count s old : Int) < 1) := by
    intro hh
    rcases hh with hh | hh
    · omega
    · omega
  rw [if_neg h2]
  simp [replaceLoop, hne, h]

/-- `Replace` with `n = 1` when `old` does not occur: `s` is returned as it is. -/
theorem Replace_one_of_Index_none {s old new : GoString} (hne : old ≠ [])
    (h : Index s old = none) : Replace s old new 1 = s := by
  unfold Replace
  simp [Count_of_Index_none hne h]

end strings

theorem strings.Replace_one_isFirstReplaced {s old new : GoString} (hne : old ≠ [])
    (hon : old ≠ new) : IsFirstReplaced old new s (strings.Replace s old new 1) := by
  cases h : strings.Index s old with
  | none =>
    right
    exact ⟨strings.Index_none h, strings.Replace_one_of_Index_none hne h⟩
  | some i =>
    left
    obtain ⟨h1, h2, h3⟩ := strings.Index_some h
    obtain ⟨post, hpost⟩ := h1
    have hlen : (s.take i).length = i := by simp [h2]
    refine ⟨s.take i, post, ?_, ?_, ?_⟩
    · rw [List.append_assoc, hpost, List.take_append_drop]
    · rw [hlen]; exact h3
    · rw [strings.Replace_one_of_Index_some hne hon h]
      congr 1
      rw [← List.drop_drop, ← hpost]
      simp

/-- When `old` occurs in `s`, the text with the first occurrence replaced contains
`new`. -/
theorem IsFirstReplaced.infix_new {old new s r : GoString} (h : IsFirstReplaced old new s r)
    (hin : old <:+: s) : new <:+: r := by
  rcases h with ⟨pre, post, -, -, hr⟩ | ⟨hn, -⟩
  · exact ⟨pre, post, hr.symm⟩
  · exact absurd hin hn

/-! ## The `range` loop as a map -/

theorem rangeLoop_append (body : Nat → GoString → List GoString → List GoString)
    (f : GoString → GoString)
    (hbody : ∀ i a, i < a.length → body i (a.getD i []) a = a.set i (f (a.getD i [])))
    (l₁ l₂ : List GoString) :
    rangeLoop body l₂.length l₁.length (l₁ ++ l₂) = l₁ ++ l₂.map f := by
  induction l₂ generalizing l₁ with
  | nil => simp [rangeLoop]
  | cons x l₂ ih =>
    have hi : l₁.length < (l₁ ++ x :: l₂).length := by simp
    have hget : (l₁ ++ x :: l₂).getD l₁.length [] = x := by
      rw [List.getD_append_right _ _ _ _ (Nat.le_refl _)]
      simp
    rw [List.length_cons, rangeLoop, hbody _ _ hi, hget,
      List.set_append_right _ _ (Nat.le_refl _)]
    have := ih (l₁ ++ [f x])
    simpa using this

theorem rangeLoop_map (body : Nat → GoString → List GoString → List GoString)
    (f : GoString → GoString)
    (hbody : ∀ i a, i < a.length → body i (a.getD i []) a = a.set i (f (a.getD i [])))
    (a : List GoString) : rangeLoop body a.length 0 a = a.map f := by
  simpa using rangeLoop_append body f hbody [] a

theorem set_getD_self (a : List GoString) (i : Nat) (hi : i < a.length) :
    a.set i (a.getD i []) = a := by
  induction a generalizing i with
  | nil => simp
  | cons x xs ih =>
    cases i with
    | zero => simp
    | succ i =>
      have := ih i (by simpa using hi)
      simpa using this

theorem count_cons_ne {x c : Char} (hx : x ≠ c) (xs : GoString) :
    (x :: xs).count c = xs.count c := by
  simp [List.count_cons, hx]

namespace strings

/-! ### Splitting at a one-character separator -/

theorem Index_single_cons (c x : Char) (xs : GoString) :
    Index (x :: xs) [c] = if x = c then some 0 else (Index xs [c]).map (· + 1) := by
  rw [Index_cons]
  by_cases h : x = c
  · subst h; simp
  · have : ¬ (c = x) := fun h' => h h'.symm
    simp [h, this]

theorem Index_single_none {c : Char} {s : GoString} (h : Index s [c] = none) :
    s.count c = 0 := by
  induction s with
  | nil => simp
  | cons x xs ih =>
    rw [Index_single_cons] at h
    by_cases hx : x = c
    · simp [hx] at h
    · rw [if_neg hx] at h
      have : Index xs [c] = none := by
        cases hi : Index xs [c] with
        | none => rfl
        | some j => simp [hi] at h
      rw [count_cons_ne hx]
      exact ih this

theorem Index_single_some {c : Char} {s : GoString} {m : Nat} (h : Index s [c] = some m) :
    s.count c = (s.drop (m + 1)).count c + 1 := by
  induction s generalizing m with
  | nil => simp [Index_nil] at h
  | cons x xs ih =>
    rw [Index_single_cons] at h
    by_cases hx : x = c
    · rw [if_pos hx] at h
      cases h
      simp [hx]
    · rw [if_neg hx] at h
      cases hi : Index xs [c] with
      | none => simp [hi] at h
      | some j =>
        simp [hi] at h
        subst h
        rw [count_cons_ne hx, ih hi]
        simp

theorem countLoop_single (c : Char) (k : Nat) (s : GoString) (hk : s.length ≤ k) :
    countLoop [c] k s = s.count c := by
  induction k generalizing s with
  | zero =>
    have : s = [] := List.length_eq_zero.mp (by omega)
    subst this
    simp [countLoop]
  | succ k ih =>
    rw [countLoop]
    cases h : Index s [c] with
    | none => simp [Index_single_none h]
    | some m =>
      simp only [List.length_singleton]
      rw [ih _ (by rw [List.length_drop]; omega), Index_single_some h]

theorem Count_single (c : Char) (s : GoString) : Count s [c] = s.count c := by
  unfold Count
  simp [countLoop_single c s.length s (Nat.le_refl _)]

theorem splitLoop_cons_ne {c x : Char} (hx : x ≠ c) (k : Nat) (xs : GoString) :
    splitLoop [c] k (x :: xs) = consHead x (splitLoop [c] k xs) := by
  cases k with
  | zero => simp [splitLoop, consHead]
  | succ k =>
    rw [splitLoop, splitLoop, Index_single_cons, if_neg hx]
    cases h : Index xs [c] with
    | none => simp [consHead]
    | some m => simp [consHead]

theorem splitLoop_single (c : Char) (s : GoString) (k : Nat) (hk : s.count c ≤ k) :
    splitLoop [c] k s = splitChar c s := by
  induction s generalizing k with
  | nil => cases k <;> simp [splitLoop, splitChar, Index_nil]
  | cons x xs ih =>
    by_cases hx : x = c
    · subst hx
      rw [List.count_cons_self] at hk
      obtain ⟨k', rfl⟩ : ∃ k', k = k' + 1 := ⟨k - 1, by omega⟩
      rw [splitLoop, Index_single_cons, if_pos rfl]
      simp [splitChar, ih k' (by omega)]
    · rw [count_cons_ne hx] at hk
      rw [splitLoop_cons_ne hx, ih k hk, splitChar, if_neg hx]

/-- `Split` at a one-character separator cuts at every occurrence of it. -/
theorem Split_single (c : Char) (s : GoString) : Split s [c] = splitChar c s := by
  unfold Split
  rw [if_neg (by simp)]
  apply splitLoop_single
  rw [Count_single]
  have := List.count_le_length c s
  omega

theorem splitChar_ne_nil (c : Char) (s : GoString) : splitChar c s ≠ [] := by
  cases s with
  | nil => simp [splitChar]
  | cons x xs =>
    rw [splitChar]
    split
    · simp
    · cases splitChar c xs <;> simp [consHead]

theorem not_mem_of_mem_splitChar (c : Char) (s : GoString) :
    ∀ t ∈ splitChar c s, c ∉ t := by
  induction s with
  | nil => simp [splitChar]
  | cons x xs ih =>
    rw [splitChar]
    split
    · intro t ht
      rcases List.mem_cons.mp ht with h | h
      · subst h; simp
      · exact ih t h
    · rename_i hx
      cases hsp : splitChar c xs with
      | nil => exact absurd hsp (splitChar_ne_nil c xs)
      | cons t ts =>
        rw [hsp] at ih
        intro u hu
        simp only [consHead, List.mem_cons] at hu
        rcases hu with h | h
        · subst h
          have := ih t (by simp)
          simp [this, Ne.symm hx]
        · exact ih u (by simp [h])

theorem splitChar_of_not_mem {c : Char} {t : GoString} (h : c ∉ t) : splitChar c t = [t] := by
  induction t with
  | nil => rfl
  | cons x xs ih =>
    simp only [List.mem_cons, not_or] at h
    rw [splitChar, if_neg (Ne.symm h.1), ih h.2, consHead]

theorem splitChar_append_sep {c : Char} {t : GoString} (h : c ∉ t) (r : GoString) :
    splitChar c (t ++ c :: r) = t :: splitChar c r := by
  induction t with
  | nil => simp [splitChar]
  | cons x xs ih =>
    simp only [List.mem_cons, not_or] at h
    rw [List.cons_append, splitChar, if_neg (Ne.symm h.1), ih h.2, consHead]

theorem foldl_join_append (sep a b : GoString) (rest : List GoString) :
    rest.foldl (fun b s => b ++ sep ++ s) (a ++ b) = a ++ rest.foldl (fun b s => b ++ sep ++ s) b := by
  induction rest generalizing b with
  | nil => rfl
  | cons x xs ih =>
    simp only [List.foldl_cons]
    rw [List.append_assoc, List.append_assoc, ih, List.append_assoc]

theorem Join_cons_cons (e e' : GoString) (rest : List GoString) (sep : GoString) :
    Join (e :: e' :: rest) sep = e ++ sep ++ Join (e' :: rest) sep := by
  simp only [Join, List.foldl_cons]
  rw [foldl_join_append, List.append_assoc]

/-- Joining tokens that are free of `c` with `c`, then splitting at `c`, gives the
tokens back. -/
theorem splitChar_Join (c : Char) (toks : List GoString) (hne : toks ≠ [])
    (h : ∀ t ∈ toks, c ∉ t) : splitChar c (Join toks [c]) = toks := by
  induction toks with
  | nil => exact absurd rfl hne
  | cons e rest ih =>
    cases rest with
    | nil =>
      simp only [Join, List.foldl_nil]
      exact splitChar_of_not_mem (h e (by simp))
    | cons e' rest =>
      rw [Join_cons_cons, List.append_assoc, List.singleton_append,
        splitChar_append_sep (h e (by simp)), ih (by simp)]
      intro t ht
      exact h t (List.mem_cons_of_mem _ ht)

/-- Joining the pieces of a split with the separator gives the text back. -/
theorem Join_splitChar (c : Char) (s : GoString) : Join (splitChar c s) [c] = s := by
  induction s with
  | nil => rfl
  | cons x xs ih =>
    rw [splitChar]
    split
    · rename_i hx
      cases hsp : splitChar c xs with
      | nil => exact absurd hsp (splitChar_ne_nil c xs)
      | cons t ts =>
        rw [hsp] at ih
        rw [Join_cons_cons, ih, hx]
        rfl
    · cases hsp : splitChar c xs with
      | nil => exact absurd hsp (splitChar_ne_nil c xs)
      | cons t ts =>
        rw [hsp] at ih
        rw [consHead, ← ih]
        simp only [Join]
        exact foldl_join_append [c] [x] t ts

end strings

/-! ## `qualifyWebWithSlash` -/

theorem qualifyWebWithSlash_eq_map (s : GoString) :
    qualifyWebWithSlash s =
      strings.Join
        ((strings.Split s ",".toList).map
          (fun t => if t = "web".toList then "web/".toList else t))
        ",".toList := by
  unfold qualifyWebWithSlash
  simp only []
  rw [rangeLoop_map _ (fun t => if t = "web".toList then "web/".toList else t)]
  intro i a hi
  by_cases h : a.getD i [] = "web".toList
  · simp only [h, if_true]
  · simp only [h, if_false]
    exact (set_getD_self a i hi).symm

/-- C1: `qualifyWebWithSlash s` is the comma-join of the comma-split of `s` with
every token equal to `web` replaced by `web/` and every other token kept; splitting
the result at commas gives exactly those tokens, position by position, so the
number of tokens is that of `s`. -/
theorem qualifyWebWithSlash_spec (s : GoString) :
    qualifyWebWithSlash s =
        strings.Join
          ((strings.Split s ",".toList).map
            (fun t => if t = "web".toList then "web/".toList else t))
          ",".toList ∧
      strings.Split (qualifyWebWithSlash s) ",".toList =
        (strings.Split s ",".toList).map
          (fun t => if t = "web".toList then "web/".toList else t) ∧
      (strings.Split (qualifyWebWithSlash s) ",".toList).length =
        (strings.Split s ",".toList).length := by
  have hsplit : strings.Split (qualifyWebWithSlash s) ",".toList =
      (strings.Split s ",".toList).map
        (fun t => if t = "web".toList then "web/".toList else t) := by
    rw [qualifyWebWithSlash_eq_map]
    have hc : ",".toList = [','] := rfl
    rw [hc, strings.Split_single, strings.Split_single]
    apply strings.splitChar_Join
    · simpa using strings.splitChar_ne_nil ',' s
    · intro t ht
      obtain ⟨u, hu, rfl⟩ := List.mem_map.mp ht
      have hu' := strings.not_mem_of_mem_splitChar ',' s u hu
      by_cases hw : u = "web".toList
      · simp only [hw, if_true]
        decide
      · simpa only [hw, if_false] using hu'
  refine ⟨qualifyWebWithSlash_eq_map s, hsplit, ?_⟩
  rw [hsplit, List.length_map]

/-! ## `adjustIncludeAndExclude` -/

theorem adjustIncludeAndExclude_eq (c : CmdConfig) :
    adjustIncludeAndExclude c = adjustExclude (adjustInclude c) := rfl

theorem flagExclude_ne_flagInclude : flagExclude ≠ flagInclude := by decide

theorem Config.GetString_Set_ne (d : Config) (ns key val ns' key' : GoString)
    (h : key' ≠ key) : (d.Set ns key val).GetString ns' key' = d.GetString ns' key' := by
  simp [Config.GetString, Config.Set, h]

theorem adjustInclude_NS (c : CmdConfig) : (adjustInclude c).NS = c.NS := by
  unfold adjustInclude
  split
  · split <;> rfl
  · rfl

theorem adjustInclude_GetString_exclude (c : CmdConfig) :
    (adjustInclude c).Doit.GetString c.NS flagExclude = c.Doit.GetString c.NS flagExclude := by
  unfold adjustInclude
  split
  · split
    · exact Config.GetString_Set_ne _ _ _ _ _ _ flagExclude_ne_flagInclude
    · rfl
  · rfl

theorem adjustExclude_ok (c : CmdConfig) (e : GoString)
    (h : c.Doit.GetString c.NS flagExclude = .ok e) (he : e ≠ []) :
    adjustExclude c =
      { c with Doit := c.Doit.Set c.NS flagExclude (qualifyWebWithSlash e ++ ",web".toList) } := by
  unfold adjustExclude
  rw [h]
  simp only [he, ne_eq, not_false_eq_true, if_true]
  have happ : qualifyWebWithSlash e ++ ",".toList ++ keywordWeb =
      qualifyWebWithSlash e ++ ",web".toList := by
    rw [List.append_assoc]; rfl
  rw [happ]

theorem adjustExclude_other (c : CmdConfig)
    (h : c.Doit.GetString c.NS flagExclude = .ok [] ∨
      ∃ err, c.Doit.GetString c.NS flagExclude = .error err) :
    adjustExclude c = { c with Doit := c.Doit.Set c.NS flagExclude "web".toList } := by
  unfold adjustExclude
  rcases h with h | ⟨err, h⟩
  · rw [h]; simp; rfl
  · rw [h]; rfl

/-- C2: after `adjustIncludeAndExclude` the exclude flag has been set (it is the
last write to the store).  When it was read without error as a non-empty `e`, its
new value is `qualifyWebWithSlash e` followed by `,web`; when it was empty or the
read failed, its new value is exactly `web`. -/
theorem adjustIncludeAndExclude_exclude (c : CmdConfig) :
    (∀ e, c.Doit.GetString c.NS flagExclude = .ok e → e ≠ [] →
        (adjustIncludeAndExclude c).Doit.values c.NS flagExclude =
            qualifyWebWithSlash e ++ ",web".toList ∧
          (adjustIncludeAndExclude c).Doit.writes.getLast? =
            some (c.NS, flagExclude, qualifyWebWithSlash e ++ ",web".toList)) ∧
      ((c.Doit.GetString c.NS flagExclude = .ok [] ∨
          ∃ err, c.Doit.GetString c.NS flagExclude = .error err) →
        (adjustIncludeAndExclude c).Doit.values c.NS flagExclude = "web".toList ∧
          (adjustIncludeAndExclude c).Doit.writes.getLast? =
            some (c.NS, flagExclude, "web".toList)) := by
  rw [adjustIncludeAndExclude_eq]
  have hns := adjustInclude_NS c
  have hget := adjustInclude_GetString_exclude c
  rw [← hns] at hget
  constructor
  · intro e h he
    rw [← hns] at h
    rw [adjustExclude_ok _ e (hget.trans h) he]
    simp [Config.Set, hns]
  · intro h
    rw [← hns] at h
    rw [adjustExclude_other _ (by rw [hget]; exact h)]
    simp [Config.Set, hns]

theorem adjustExclude_values_include (c : CmdConfig) :
    (adjustExclude c).Doit.values c.NS flagInclude = c.Doit.values c.NS flagInclude := by
  have hne : flagInclude ≠ flagExclude := fun h => flagExclude_ne_flagInclude h.symm
  unfold adjustExclude
  split
  · split <;> simp [Config.Set, hne]
  · simp [Config.Set, hne]

theorem adjustExclude_writes (c : CmdConfig) :
    ∃ v, (adjustExclude c).Doit.writes = c.Doit.writes ++ [(c.NS, flagExclude, v)] := by
  unfold adjustExclude
  split
  · split
    · exact ⟨_, rfl⟩
    · exact ⟨_, rfl⟩
  · exact ⟨_, rfl⟩

theorem adjustInclude_ok (c : CmdConfig) (i : GoString)
    (h : c.Doit.GetString c.NS flagInclude = .ok i) (hi : i ≠ []) :
    adjustInclude c =
      { c with Doit := c.Doit.Set c.NS flagInclude (qualifyWebWithSlash i) } := by
  unfold adjustInclude
  rw [h]
  simp only [hi, ne_eq, not_false_eq_true, if_true]

theorem adjustInclude_other (c : CmdConfig)
    (h : c.Doit.GetString c.NS flagInclude = .ok [] ∨
      ∃ err, c.Doit.GetString c.NS flagInclude = .error err) :
    adjustInclude c = c := by
  unfold adjustInclude
  rcases h with h | ⟨err, h⟩
  · rw [h]; simp
  · rw [h]

/-- C3: when the include flag is read without error as a non-empty `i`,
`adjustIncludeAndExclude` sets it to `qualifyWebWithSlash i` (one write to the
include flag, followed by the write to the exclude flag); when it is empty or the
read fails, the only write is the one to the exclude flag, which is another flag,
and the include flag keeps its value. -/
theorem adjustIncludeAndExclude_include (c : CmdConfig) :
    (∀ i, c.Doit.GetString c.NS flagInclude = .ok i → i ≠ [] →
        (adjustIncludeAndExclude c).Doit.values c.NS flagInclude = qualifyWebWithSlash i ∧
          ∃ v, (adjustIncludeAndExclude c).Doit.writes =
            c.Doit.writes ++ [(c.NS, flagInclude, qualifyWebWithSlash i), (c.NS, flagExclude, v)]) ∧
      ((c.Doit.GetString c.NS flagInclude = .ok [] ∨
          ∃ err, c.Doit.GetString c.NS flagInclude = .error err) →
        (adjustIncludeAndExclude c).Doit.values c.NS flagInclude =
            c.Doit.values c.NS flagInclude ∧
          ∃ v, (adjustIncludeAndExclude c).Doit.writes =
            c.Doit.writes ++ [(c.NS, flagExclude, v)]) ∧
      flagExclude ≠ flagInclude := by
  rw [adjustIncludeAndExclude_eq]
  have hns := adjustInclude_NS c
  have hval := adjustExclude_values_include (adjustInclude c)
  obtain ⟨v, hw⟩ := adjustExclude_writes (adjustInclude c)
  rw [hns] at hval hw
  refine ⟨?_, ?_, flagExclude_ne_flagInclude⟩
  · intro i h hi
    rw [hval, hw, adjustInclude_ok c i h hi]
    exact ⟨by simp [Config.Set], v, by simp [Config.Set]⟩
  · intro h
    rw [hval, hw, adjustInclude_other c h]
    exact ⟨rfl, v, rfl⟩

/-! ## The transcript fix-up of `RunSandboxExtraDeploy` -/

theorem fixCaptured_eq_map (captured : List GoString) :
    fixCaptured captured = captured.map fixLine := by
  unfold fixCaptured
  rw [rangeLoop_map _ fixLine]
  intro i a hi
  unfold fixLine
  by_cases h1 : strings.Contains (a.getD i []) "Deploying project".toList = true
  · simp only [h1, if_true]
  · by_cases h2 : strings.Contains (a.getD i []) "Deployed actions".toList = true
    · simp only [h1, h2, if_true, if_false]
      rfl
    · simp only [h1, h2, if_false]
      exact (set_getD_self a i hi).symm

/-- C4: the transcript fix-up keeps the number of lines and works position by
position.  A line containing `Deploying project` becomes that line with its first
(leftmost) occurrence of `Deploying project` replaced by `Deployed`, whether or not
it contains `Deployed actions`; a line without `Deploying project` but containing
`Deployed actions` becomes the fixed `Deployed functions ...` line; any other line
is unchanged. -/
theorem fixCaptured_spec (captured : List GoString) :
    (fixCaptured captured).length = captured.length ∧
      ∀ (i : Nat) (line : GoString), captured[i]? = some line →
        ∃ res, (fixCaptured captured)[i]? = some res ∧
          ("Deploying project".toList <:+: line →
            ∃ pre post, line = pre ++ "Deploying project".toList ++ post ∧
              (∀ k, k < pre.length → ¬ "Deploying project".toList <+: line.drop k) ∧
              res = pre ++ "Deployed".toList ++ post) ∧
          (¬ "Deploying project".toList <:+: line → "Deployed actions".toList <:+: line →
            res = "Deployed functions ('doctl sbx fn get <funcName> --url' for URL):".toList) ∧
          (¬ "Deploying project".toList <:+: line → ¬ "Deployed actions".toList <:+: line →
            res = line) := by
  rw [fixCaptured_eq_map]
  refine ⟨List.length_map _ _, ?_⟩
  intro i line hline
  refine ⟨fixLine line, by simp [hline], ?_, ?_, ?_⟩
  · intro h
    have hc := (strings.Contains_iff line _).mpr h
    have hfix : fixLine line =
        strings.Replace line "Deploying project".toList "Deployed".toList 1 := by
      unfold fixLine
      rw [if_pos hc]
    rw [hfix]
    rcases @strings.Replace_one_isFirstReplaced line "Deploying project".toList
        "Deployed".toList (by decide) (by decide) with h' | h'
    · exact h'
    · exact absurd h h'.1
  · intro h1 h2
    have hc1 : ¬ strings.Contains line "Deploying project".toList = true :=
      fun hc => h1 ((strings.Contains_iff line _).mp hc)
    have hc2 := (strings.Contains_iff line _).mpr h2
    unfold fixLine
    rw [if_neg hc1, if_pos hc2]
  · intro h1 h2
    have hc1 : ¬ strings.Contains line "Deploying project".toList = true :=
      fun hc => h1 ((strings.Contains_iff line _).mp hc)
    have hc2 : ¬ strings.Contains line "Deployed actions".toList = true :=
      fun hc => h2 ((strings.Contains_iff line _).mp hc)
    unfold fixLine
    rw [if_neg hc1, if_neg hc2]

/-! ## `RunSandboxExtraDeploy` and `RunSandboxExtraCreate` -/

/-- C5: in `RunSandboxExtraDeploy`, once the argument check has passed and the
external call has returned `output` and `err`: an error with an empty transcript is
returned with nothing printed; an error with a non-empty transcript is returned
unmodified after the fixed-up transcript, joined by newlines and ended by a
newline, is written to `c.Out`; without an error the text written and the error
returned are those of `PrintSandboxTextOutput` on the output with its transcript
fixed up. -/
theorem RunSandboxExtraDeploy_spec (env : Env) (c : CmdConfig) (output : SandboxOutput)
    (err : Option GoError)
    (harg : env.ensureOneArg (adjustIncludeAndExclude c) = none)
    (hexec : env.RunSandboxExec .projectDeploy (adjustIncludeAndExclude c)
        [flagInsecure, flagVerboseBuild, flagVerboseZip, flagYarn, flagRemoteBuild,
          flagIncremental]
        [flagEnv, flagBuildEnv, flagApihost, flagAuth, flagInclude, flagExclude] =
      (output, err)) :
    (∀ e, err = some e → output.Captured = [] →
        (RunSandboxExtraDeploy env c).err = some e ∧
          (RunSandboxExtraDeploy env c).out = [] ∧
          (RunSandboxExtraDeploy env c).stdout = []) ∧
      (∀ e, err = some e → output.Captured ≠ [] →
        (RunSandboxExtraDeploy env c).err = some e ∧
          (RunSandboxExtraDeploy env c).out =
            strings.Join (fixCaptured output.Captured) "\n".toList ++ "\n".toList ∧
          (RunSandboxExtraDeploy env c).stdout = []) ∧
      (err = none →
        (RunSandboxExtraDeploy env c).err =
            (env.PrintSandboxTextOutput (adjustIncludeAndExclude c)
              { output with Captured := fixCaptured output.Captured }).2 ∧
          (RunSandboxExtraDeploy env c).out =
            (env.PrintSandboxTextOutput (adjustIncludeAndExclude c)
              { output with Captured := fixCaptured output.Captured }).1 ∧
          (RunSandboxExtraDeploy env c).stdout = []) := by
  unfold RunSandboxExtraDeploy
  simp only [harg, hexec]
  refine ⟨?_, ?_, ?_⟩
  · intro e he hcap
    subst he
    simp [hcap]
  · intro e he hcap
    subst he
    have : ¬ output.Captured.length = 0 := by
      simpa [List.length_eq_zero] using hcap
    simp [this]
  · intro he
    subst he
    simp

/-- C6: in `RunSandboxExtraCreate`, when the argument check has passed and the
external call fails with `err`: if the text of `err` contains `already exists`, the
returned error's text is that text with only its first occurrence of `-o` replaced
by `--overwrite` (so a text that has `-o` comes back naming `--overwrite`);
otherwise `err` itself is returned.  Nothing is printed in either case. -/
theorem RunSandboxExtraCreate_error (env : Env) (c : CmdConfig) (output : SandboxOutput)
    (err : GoError)
    (harg : env.ensureOneArg c = none)
    (hexec : env.RunSandboxExec .projectCreate c [flagOverwrite] [flagLanguage] =
      (output, some err)) :
    ("already exists".toList <:+: err.Error →
        ∃ e, (RunSandboxExtraCreate env c).err = some e ∧
          IsFirstReplaced "-o".toList "--overwrite".toList err.Error e.Error ∧
          ("-o".toList <:+: err.Error → "--overwrite".toList <:+: e.Error)) ∧
      (¬ "already exists".toList <:+: err.Error →
        (RunSandboxExtraCreate env c).err = some err) ∧
      (RunSandboxExtraCreate env c).out = [] ∧
      (RunSandboxExtraCreate env c).stdout = [] := by
  by_cases h : strings.Contains err.Error "already exists".toList = true
  · have hin := (strings.Contains_iff _ _).mp h
    have hrun : RunSandboxExtraCreate env c =
        ⟨c, [], [], some (errors.New
          (strings.Replace err.Error "-o".toList "--overwrite".toList 1))⟩ := by
      unfold RunSandboxExtraCreate
      simp only [harg, hexec, h, if_true]
    rw [hrun]
    have hrep : IsFirstReplaced "-o".toList "--overwrite".toList err.Error
        (strings.Replace err.Error "-o".toList "--overwrite".toList 1) :=
      strings.Replace_one_isFirstReplaced (by decide) (by decide)
    exact ⟨fun _ => ⟨_, rfl, hrep, IsFirstReplaced.infix_new hrep⟩,
      fun hn => absurd hin hn, rfl, rfl⟩
  · have hin : ¬ "already exists".toList <:+: err.Error :=
      fun hc => h ((strings.Contains_iff _ _).mpr hc)
    have hrun : RunSandboxExtraCreate env c = ⟨c, [], [], some err⟩ := by
      unfold RunSandboxExtraCreate
      simp only [harg, hexec, h]
      rfl
    rw [hrun]
    exact ⟨fun hc => absurd hc hin, fun _ => rfl, rfl, rfl⟩

/-- C2 at `sampleConfig`: `--exclude web,pkg` becomes `web/,pkg,web`. -/
theorem adjustIncludeAndExclude_exclude_witness :
    sampleConfig.Doit.GetString sampleConfig.NS flagExclude = .ok "web,pkg".toList ∧
      (adjustIncludeAndExclude sampleConfig).Doit.values sampleConfig.NS flagExclude =
        "web/,pkg,web".toList :=
  ⟨rfl, ((adjustIncludeAndExclude_exclude sampleConfig).1 "web,pkg".toList rfl (by decide)).1⟩

/-- C3 at `sampleConfig`: `--include web` becomes `web/`. -/
theorem adjustIncludeAndExclude_include_witness :
    sampleConfig.Doit.GetString sampleConfig.NS flagInclude = .ok "web".toList ∧
      (adjustIncludeAndExclude sampleConfig).Doit.values sampleConfig.NS flagInclude =
        "web/".toList :=
  ⟨rfl, ((adjustIncludeAndExclude_include sampleConfig).1 "web".toList rfl (by decide)).1⟩

/-- C4 at `sampleCaptured`: three lines stay three lines and the second one, which
has `Deployed actions` only, becomes the fixed line. -/
theorem fixCaptured_spec_witness :
    sampleCaptured[0]? = some "Deploying project /tmp/Deploying project".toList ∧
      (fixCaptured sampleCaptured).length = 3 ∧
      ∃ res, (fixCaptured sampleCaptured)[1]? = some res ∧
        res = "Deployed functions ('doctl sbx fn get <funcName> --url' for URL):".toList := by
  refine ⟨rfl, (fixCaptured_spec sampleCaptured).1, ?_⟩
  obtain ⟨res, h1, -, h2, -⟩ := (fixCaptured_spec sampleCaptured).2 1 "Deployed actions:".toList rfl
  exact ⟨res, h1, h2 (by decide) (by decide)⟩

/-- C5 at `sampleEnv`: the deployment fails after a transcript, which is fixed up
and printed before the same error is returned. -/
theorem RunSandboxExtraDeploy_spec_witness :
    sampleEnv.ensureOneArg (adjustIncludeAndExclude sampleConfig) = none ∧
      (RunSandboxExtraDeploy sampleEnv sampleConfig).err =
        some (.other 2 "deployment failed".toList) ∧
      (RunSandboxExtraDeploy sampleEnv sampleConfig).out =
        strings.Join (fixCaptured sampleCaptured) "\n".toList ++ "\n".toList ∧
      (RunSandboxExtraDeploy sampleEnv sampleConfig).stdout = [] :=
  ⟨rfl, (RunSandboxExtraDeploy_spec sampleEnv sampleConfig ⟨.other, sampleCaptured⟩
    (some (.other 2 "deployment failed".toList)) rfl rfl).2.1 _ rfl (by decide)⟩

/-- C6 at `sampleEnv`: the `already exists` error comes back with its first `-o`
replaced by `--overwrite`. -/
theorem RunSandboxExtraCreate_error_witness :
    sampleEnv.ensureOneArg sampleConfig = none ∧
      ∃ e, (RunSandboxExtraCreate sampleEnv sampleConfig).err = some e ∧
        IsFirstReplaced "-o".toList "--overwrite".toList
          "dir already exists, use -o to overwrite it".toList e.Error ∧
        "--overwrite".toList <:+: e.Error := by
  obtain ⟨e, h1, h2, h3⟩ := (RunSandboxExtraCreate_error sampleEnv sampleConfig ⟨.other, []⟩
    (.other 1 "dir already exists, use -o to overwrite it".toList) rfl rfl).1 (by decide)
  exact ⟨rfl, e, h1, h2, h3 (by decide)⟩

/-! ## Concrete runs -/

/-- Only the tokens that are exactly `web` get the slash. -/
theorem qualifyWebWithSlash_run :
    qualifyWebWithSlash "web, web,web/,webby,Web,,web".toList =
      "web/, web,web/,webby,Web,,web/".toList := by
  decide

/-- The empty text has one (empty) token and stays empty. -/
theorem qualifyWebWithSlash_run_empty :
    strings.Split [] ",".toList = [[]] ∧ qualifyWebWithSlash [] = [] := by
  decide

/-- The fix-up on `sampleCaptured`: only the first `Deploying project` of the first
line is replaced. -/
theorem fixCaptured_run :
    fixCaptured sampleCaptured =
      ["Deployed /tmp/Deploying project".toList,
        "Deployed functions ('doctl sbx fn get <funcName> --url' for URL):".toList,
        "  - sample/hello".toList] := by
  decide

/-- A line with both phrases is treated as a `Deploying project` line. -/
theorem fixCaptured_run_both :
    fixCaptured ["Deployed actions of Deploying project x".toList] =
      ["Deployed actions of Deployed x".toList] := by
  decide

/-- The error of a failed `init` on an existing directory. -/
theorem RunSandboxExtraCreate_run :
    (RunSandboxExtraCreate sampleEnv sampleConfig).err =
      some (errors.New "dir already exists, use --overwrite to overwrite it".toList) := by
  decide

/-- The text printed by a failed `deploy` with a transcript. -/
theorem RunSandboxExtraDeploy_run :
    (RunSandboxExtraDeploy sampleEnv sampleConfig).out =
      "Deployed /tmp/Deploying project\nDeployed functions ('doctl sbx fn get <funcName> --url' for URL):\n  - sample/hello\n".toList := by
  decide

end SandboxExtra
